import Mathlib

/-!
Verification of the adk-python execution-flow core.

This file shallowly embeds the code of the repository:

* `_set_branch_for_current_agent` and `ParallelAgent._run_async_impl`
  (src/google/adk/agents/parallel_agent.py),
* the fan-in merger `_merge_agent_run` (same file), modelled as a
  deterministic trace semantics parameterised by a completion schedule,
* the `SingleFlow` processor lists (src/google/adk/flows/llm_flows/single_flow.py),
* the streaming and non-streaming response assembler of the LiteLLM model
  binding.  The assembler implementation (lite_llm.py) is not part of the
  provided sources, only its unit tests are; those definitions are modelled
  from the specification and are marked as such in their doc comments.

The theorems at the end of the file check the frozen claims C1 to C10.
-/

/- ================= Streaming response chunk assembler ================= -/

/-- A streamed provider chunk (spec section 6): a text fragment, a tool-call
fragment keyed by `index` (the first fragment of an index carries `id` and
`name`; every fragment carries a fragment of the JSON-encoded arguments), or
a finish marker. -/
inductive Chunk where
  | textDelta (s : String)
  | toolCallDelta (index : Nat) (id : Option String) (name : Option String)
      (argsFragment : String)
  | finish (reason : String)
deriving DecidableEq

/-- A Part of an Event (spec section 3), restricted to the variants the
assembler emits: text or a function call with structured args.  Structured
args are represented as a flat association list of string keys to string
values, which covers every argument object appearing in the sources. -/
inductive EvPart where
  | text (s : String)
  | functionCall (id : String) (name : String) (args : List (String × String))
deriving DecidableEq

/-- An assembled model event: canonical role, ordered parts, and the
`partial` flag (`true` when more content for the same logical turn
follows). -/
structure LlmEvent where
  role : String
  parts : List EvPart
  isPartial : Bool
deriving DecidableEq

/-- One item of the assembler's output stream: an event, or a
`ToolArgumentParseError` scoped to one accumulated tool call. -/
inductive StreamItem where
  | event (e : LlmEvent)
  | parseFail (index : Nat) (buffer : String)
deriving DecidableEq

/-- Drop leading JSON whitespace from a character list. -/
def skipWs : List Char → List Char
  | [] => []
  | c :: cs =>
    if c = ' ' ∨ c = '\n' ∨ c = '\t' ∨ c = '\r' then skipWs cs else c :: cs

/-- Read characters up to (and consuming) the next double quote; returns the
content and the rest.  Fails if the quote never arrives. -/
def takeUntilQuote : List Char → Option (List Char × List Char)
  | [] => none
  | c :: cs =>
    if c = '"' then some ([], cs)
    else
      match takeUntilQuote cs with
      | some (s, rest) => some (c :: s, rest)
      | none => none

/-- Parse a comma-separated sequence of `"key" : "value"` entries terminated
by a closing brace, with `fuel` bounding the recursion. -/
def parseEntries : Nat → List Char → Option (List (String × String))
  | 0, _ => none
  | fuel + 1, cs =>
    match skipWs cs with
    | '"' :: cs1 =>
      match takeUntilQuote cs1 with
      | none => none
      | some (key, cs2) =>
        match skipWs cs2 with
        | ':' :: cs3 =>
          match skipWs cs3 with
          | '"' :: cs4 =>
            match takeUntilQuote cs4 with
            | none => none
            | some (val, cs5) =>
              match skipWs cs5 with
              | ',' :: cs6 =>
                match parseEntries fuel cs6 with
                | some rest => some ((String.mk key, String.mk val) :: rest)
                | none => none
              | '\x7d' :: cs6 =>
                if skipWs cs6 = [] then
                  some [(String.mk key, String.mk val)]
                else none
              | _ => none
          | _ => none
        | _ => none
    | _ => none

/-- Modelled from the spec: the structured parse of a JSON-encoded argument
buffer ("parse args_buffer as structured data", spec section 4.4; the
missing lite_llm.py source uses the standard JSON parser).  It is restricted
to flat objects with string keys and string values, the only argument shape
exercised by the repository's sources. -/
def parseJsonObject (s : String) : Option (List (String × String)) :=
  match skipWs s.data with
  | '\x7b' :: cs =>
    match skipWs cs with
    | '\x7d' :: cs2 => if skipWs cs2 = [] then some [] else none
    | _ => parseEntries (s.data.length + 1) cs
  | _ => none

/-- Modelled from the spec: role normalization in the response assembler
(spec section 4.4): an incoming role of "model" or "assistant" both map to
the canonical output role "model"; a missing/absent role maps to "user".
The assembler implementation (lite_llm.py) is absent from the provided
sources. -/
def normalizeResponseRole : Option String → String
  | some r => if r = "model" ∨ r = "assistant" then "model" else r
  | none => "user"

/-- Accumulator entry for one streamed tool call: the `id` and `name` seen
on its first fragment and the growing argument buffer. -/
structure ToolCallAcc where
  id : Option String
  name : Option String
  argsBuffer : String
deriving DecidableEq

/-- The per-call streaming accumulator (spec section 3): text buffer, the
tool-call mapping keyed by chunk-reported index (kept in ascending index
order), and the finish reason. -/
structure AccState where
  textBuffer : String
  toolCalls : List (Nat × ToolCallAcc)
  finishReason : Option String
deriving DecidableEq

/-- Record one tool-call fragment into the accumulator: the first fragment
of an index creates the entry with its `id`/`name`; later fragments keep the
recorded `id`/`name` and append to the argument buffer.  Entries stay sorted
by index. -/
def updateToolCall (acc : List (Nat × ToolCallAcc)) (index : Nat)
    (id : Option String) (name : Option String) (frag : String) :
    List (Nat × ToolCallAcc) :=
  match acc with
  | [] => [(index, ⟨id, name, frag⟩)]
  | (k, tc) :: rest =>
    if index < k then (index, ⟨id, name, frag⟩) :: (k, tc) :: rest
    else if index = k then
      (k, ⟨(match tc.id with | some x => some x | none => id),
           (match tc.name with | some x => some x | none => name),
           tc.argsBuffer ++ frag⟩) :: rest
    else (k, tc) :: updateToolCall rest index id name frag

/-- Modelled from the spec: one step of the streaming assembler (spec
section 4.4; the lite_llm.py implementation is absent from the provided
sources).  A text fragment is appended to the buffer and emitted immediately
as a partial text event; a tool-call fragment is accumulated; a finish
marker emits, per accumulated index in index order, one function-call event
with the parsed args, or a `ToolArgumentParseError` item for that call when
the buffer does not parse, and discards the accumulator. -/
def stepChunk (st : AccState) : Chunk → AccState × List StreamItem
  | Chunk.textDelta s =>
    ({ st with textBuffer := st.textBuffer ++ s },
     [StreamItem.event ⟨"model", [EvPart.text s], true⟩])
  | Chunk.toolCallDelta index id name frag =>
    ({ st with toolCalls := updateToolCall st.toolCalls index id name frag }, [])
  | Chunk.finish _reason =>
    (⟨"", [], none⟩,
     st.toolCalls.map (fun kt =>
       match parseJsonObject kt.2.argsBuffer with
       | some args =>
         StreamItem.event
           ⟨"model",
            [EvPart.functionCall (kt.2.id.getD "") (kt.2.name.getD "") args],
            false⟩
       | none => StreamItem.parseFail kt.1 kt.2.argsBuffer))

/-- Run the streaming assembler from a given accumulator state. -/
def runStreamAux (st : AccState) : List Chunk → List StreamItem
  | [] => []
  | c :: rest =>
    let r := stepChunk st c
    r.2 ++ runStreamAux r.1 rest

/-- Run the streaming assembler on a chunk sequence from the empty
accumulator. -/
def runStream (chunks : List Chunk) : List StreamItem :=
  runStreamAux ⟨"", [], none⟩ chunks

/-- A complete (non-streaming) tool call: `id`, `name`, and already-complete
structured args (spec section 4.4). -/
structure ToolCall where
  id : String
  name : String
  args : List (String × String)
deriving DecidableEq

/-- A non-streaming model response (spec section 6): a role, zero or one
text content, and zero or more ordered tool calls. -/
structure ModelResponseNS where
  role : Option String
  text : Option String
  toolCalls : List ToolCall
deriving DecidableEq

/-- Modelled from the spec: the non-streaming assembler (spec section 4.4;
lite_llm.py is absent from the provided sources).  It emits exactly one
event containing, in order, a text part (if text is present) followed by one
function-call part per tool call, ids preserved, under the normalized
role. -/
def nonStreamingAssemble (r : ModelResponseNS) : List LlmEvent :=
  [⟨normalizeResponseRole r.role,
    (match r.text with | some t => [EvPart.text t] | none => []) ++
      r.toolCalls.map (fun tc => EvPart.functionCall tc.id tc.name tc.args),
    false⟩]

/- ================= SingleFlow processor pipeline ================= -/

/-- The request processors named in SingleFlow.__init__
(single_flow.py, lines 40-53), one constructor per module-level
`request_processor` in the order-independent sense (the order lives in the
list below, as in the source). -/
inductive RequestProcessor where
  | basic
  | authPreprocessor
  | instructions
  | identity
  | contents
  | nlPlanning
  | codeExecution
deriving DecidableEq

/-- The response processors named in SingleFlow.__init__
(single_flow.py, lines 54-57). -/
inductive ResponseProcessor where
  | nlPlanning
  | codeExecution
deriving DecidableEq

/-- The request processor list fixed by SingleFlow.__init__
(single_flow.py, lines 40-53).  The base class starts from an empty list
(modelled from the spec: the two lists are "fixed at Flow Engine
construction"; base_llm_flow.py is absent from the provided sources), so the
list is exactly the appended literal, in declaration order. -/
def singleFlowRequestProcessors : List RequestProcessor :=
  [RequestProcessor.basic,
   RequestProcessor.authPreprocessor,
   RequestProcessor.instructions,
   RequestProcessor.identity,
   RequestProcessor.contents,
   RequestProcessor.nlPlanning,
   RequestProcessor.codeExecution]

/-- The response processor list fixed by SingleFlow.__init__
(single_flow.py, lines 54-57). -/
def singleFlowResponseProcessors : List ResponseProcessor :=
  [ResponseProcessor.nlPlanning, ResponseProcessor.codeExecution]

/-- Modelled from the spec: pipeline execution is a strict left-to-right
fold of `process` over the shared mutable context (spec section 4.3;
base_llm_flow.py is absent from the provided sources).  The trace component
records which processors ran, in order. -/
def runProcessorsWithTrace {α π : Type} (apply : π → α → α) :
    List π → α → α × List π
  | [], ctx => (ctx, [])
  | p :: rest, ctx =>
    let r := runProcessorsWithTrace apply rest (apply p ctx)
    (r.1, p :: r.2)

/- ================= Branch context ================= -/

/-- The invocation context, restricted to the field the claims are about:
the mutable dot-separated `branch` path.  `none` models an unset branch. -/
structure InvocationContext where
  branch : Option String
deriving DecidableEq

/-- Python truthiness of the branch field: `None` and the empty string are
falsy. -/
def branchTruthy : Option String → Bool
  | none => false
  | some b => b ≠ ""

/-- The function `_set_branch_for_current_agent` (parallel_agent.py, lines 29-36):
`ctx.branch = f"{ctx.branch}.{name}" if ctx.branch else name`. -/
def set_branch_for_current_agent (agentName : String)
    (ctx : InvocationContext) : InvocationContext :=
  { ctx with
    branch :=
      some (match ctx.branch with
        | some b => if b = "" then agentName else b ++ "." ++ agentName
        | none => agentName) }

/-- Holds (`true`) exactly when the string starts with the branch separator. -/
def startsWithSep (s : String) : Bool :=
  match s.data with
  | c :: _ => c = '.'
  | [] => false

/- ================= Fan-in merger (_merge_agent_run) ================= -/

/-- The outcome a source's `__anext__` fetch can resolve to once its items
run out or raise: an item is either an event or an error other than
exhaustion (`StopAsyncIteration` is represented by the list running out). -/
inductive FetchItem (α : Type) where
  | ev (e : α)
  | err (msg : String)
deriving DecidableEq

/-- The state of `_merge_agent_run` between completions: the items each
source has not yet delivered, and per source whether a fetch task is
outstanding (`tasks`/`pending_tasks` in parallel_agent.py, lines 53-57; a
source leaves the pending set on `StopAsyncIteration`, lines 75-76). -/
structure MergeState (α : Type) where
  remaining : List (List (FetchItem α))
  active : List Bool
deriving DecidableEq

/-- Observable actions of the merger: issuing a fetch (`asyncio.create_task(
gen.__anext__())`), yielding a fetched event downstream, a source reporting
exhaustion, and an error propagating out of the generator. -/
inductive MergeAction (α : Type) where
  | fetch (i : Nat)
  | yieldEv (i : Nat) (e : α)
  | exhaust (i : Nat)
  | raiseErr (i : Nat) (msg : String)
deriving DecidableEq

/-- The result of a merger run: the action trace, the final state, and the
error that aborted it, if any. -/
structure RunResult (α : Type) where
  trace : List (MergeAction α)
  final : MergeState α
  aborted : Option (Nat × String)
deriving DecidableEq

/-- The indices of sources with an outstanding fetch (the `pending_tasks`
set of parallel_agent.py, line 57). -/
def activeIndices {α : Type} (st : MergeState α) : List Nat :=
  (List.range st.active.length).filter (fun i => st.active.getD i false)

/-- The outstanding fetch `asyncio.wait(..., FIRST_COMPLETED)` reports as
completed next: any outstanding fetch may be the one, so the schedule entry
`s` indexes into the active set.  `none` when no fetch is outstanding. -/
def pickActive {α : Type} (st : MergeState α) (s : Nat) : Option Nat :=
  match activeIndices st with
  | [] => none
  | a :: rest => some ((a :: rest).getD (s % (a :: rest).length) 0)

/-- The body of the `while pending_tasks` loop of `_merge_agent_run`
(parallel_agent.py, lines 59-76), driven by a completion schedule: each
schedule entry selects which outstanding fetch completes next.  A completed
fetch holding an event is yielded and only then is a new fetch issued for
that same source (lines 65-73); `StopAsyncIteration` removes the source
without emitting (lines 75-76); any other error propagates out of the
generator, ending the run with the remaining fetches still outstanding (no
cancellation appears in the source).  The run ends normally when no fetch
is outstanding. -/
def mergeRunAux {α : Type} : List Nat → MergeState α → RunResult α
  | [], st => ⟨[], st, none⟩
  | s :: sched, st =>
    match pickActive st s with
    | none => ⟨[], st, none⟩
    | some i =>
      match st.remaining.getD i [] with
      | [] =>
        ⟨MergeAction.exhaust i ::
           (mergeRunAux sched ⟨st.remaining, st.active.set i false⟩).trace,
         (mergeRunAux sched ⟨st.remaining, st.active.set i false⟩).final,
         (mergeRunAux sched ⟨st.remaining, st.active.set i false⟩).aborted⟩
      | FetchItem.ev e :: rest =>
        ⟨MergeAction.yieldEv i e :: MergeAction.fetch i ::
           (mergeRunAux sched ⟨st.remaining.set i rest, st.active⟩).trace,
         (mergeRunAux sched ⟨st.remaining.set i rest, st.active⟩).final,
         (mergeRunAux sched ⟨st.remaining.set i rest, st.active⟩).aborted⟩
      | FetchItem.err m :: rest =>
        ⟨[MergeAction.raiseErr i m],
         ⟨st.remaining.set i rest, st.active.set i false⟩,
         some (i, m)⟩

/-- The initial merger state: every source still holds all its items and
every source got an initial fetch task (parallel_agent.py, lines 53-56). -/
def mergeInit {α : Type} (sources : List (List (FetchItem α))) : MergeState α :=
  ⟨sources, List.replicate sources.length true⟩

/-- A full `_merge_agent_run` execution: the initial fetches for all
sources followed by the loop trace. -/
def mergeRunFull {α : Type} (sources : List (List (FetchItem α)))
    (sched : List Nat) : RunResult α :=
  let r := mergeRunAux sched (mergeInit sources)
  ⟨(List.range sources.length).map MergeAction.fetch ++ r.trace,
   r.final, r.aborted⟩

/-- The events a trace yields downstream, in order. -/
def mergeOutputs {α : Type} (tr : List (MergeAction α)) : List α :=
  tr.filterMap (fun a =>
    match a with
    | MergeAction.yieldEv _ e => some e
    | _ => none)

/-- The events a trace yields downstream from one given source, in order. -/
def mergeYields {α : Type} (tr : List (MergeAction α)) (i : Nat) : List α :=
  tr.filterMap (fun a =>
    match a with
    | MergeAction.yieldEv j e => if j = i then some e else none
    | _ => none)

/-- The events of an item list (the list with errors projected away). -/
def evsOf {α : Type} (l : List (FetchItem α)) : List α :=
  l.filterMap (fun it =>
    match it with
    | FetchItem.ev e => some e
    | _ => none)

/-- A run is complete when no fetch is left outstanding (the loop condition
`while pending_tasks` became false). -/
def completedRun {α : Type} (r : RunResult α) : Bool :=
  r.final.active.all (fun b => !b)

/-- The backpressure checker: walking the trace with `credit` fetch
allowances for source `i` (one allowance per yielded event, plus the given
initial allowance), it returns `true` exactly when every fetch of source
`i` is covered — that is, when in every prefix of the trace the number of
fetches issued to `i` is at most the initial allowance plus the number of
`i`-events already yielded downstream. -/
def fetchGated {α : Type} (i : Nat) : List (MergeAction α) → Nat → Bool
  | [], _ => true
  | MergeAction.fetch j :: rest, credit =>
    if j = i then
      match credit with
      | 0 => false
      | c + 1 => fetchGated i rest c
    else fetchGated i rest credit
  | MergeAction.yieldEv j _ :: rest, credit =>
    fetchGated i rest (if j = i then credit + 1 else credit)
  | MergeAction.exhaust _ :: rest, credit => fetchGated i rest credit
  | MergeAction.raiseErr _ _ :: rest, credit => fetchGated i rest credit

/- ================= ParallelAgent ================= -/

/-- An event as the parallel-composition claims observe it: the branch it
was produced under and its payload. -/
structure BranchEvent (α : Type) where
  branch : String
  payload : α
deriving DecidableEq

/-- A leaf child agent: a name and the payloads of the events its run
produces, in order. -/
structure LeafAgent (α : Type) where
  name : String
  payload : List α
deriving DecidableEq

/-- Modelled from the spec: `BaseAgent.run_async` (absent from the provided
sources) runs a child against an independent clone of the invocation
context whose branch is the parent's branch plus the child's name (spec
sections 3 and 4.1); the child's events carry the clone's branch.  The
branch extension is the same appending rule as
`_set_branch_for_current_agent`. -/
def runAsyncLeaf {α : Type} (a : LeafAgent α)
    (parentCtx : InvocationContext) : List (BranchEvent α) :=
  a.payload.map (fun x =>
    ⟨(set_branch_for_current_agent a.name parentCtx).branch.getD "", x⟩)

/-- The body of `ParallelAgent._run_async_impl` (parallel_agent.py, lines 89-96): set
the agent's own branch segment on the context, start one run per sub-agent
against that context, and yield whatever `_merge_agent_run` yields. -/
def parallelAgentRun {α : Type} (name : String)
    (children : List (LeafAgent α)) (ctx : InvocationContext)
    (sched : List Nat) : List (BranchEvent α) :=
  let ctx1 := set_branch_for_current_agent name ctx
  let runs := children.map (fun c => (runAsyncLeaf c ctx1).map FetchItem.ev)
  mergeOutputs (mergeRunFull runs sched).trace

/- ================= Helper lemmas ================= -/

theorem getD_set_self {β : Type} (l : List β) (i : Nat) (a d : β)
    (h : i < l.length) : (l.set i a).getD i d = a := by
  induction l generalizing i with
  | nil => simp at h
  | cons b rest ih =>
    cases i with
    | zero => rfl
    | succ n => exact ih n (by simpa using h)

theorem getD_set_ne {β : Type} (l : List β) (i j : Nat) (a d : β)
    (h : i ≠ j) : (l.set i a).getD j d = l.getD j d := by
  induction l generalizing i j with
  | nil => rfl
  | cons b rest ih =>
    cases i with
    | zero =>
      cases j with
      | zero => exact absurd rfl h
      | succ n => rfl
    | succ n1 =>
      cases j with
      | zero => rfl
      | succ n2 => exact ih n1 n2 (fun hh => h (by rw [hh]))

theorem getD_eq_default_of_le {β : Type} (l : List β) (i : Nat) (d : β)
    (h : l.length ≤ i) : l.getD i d = d := by
  induction l generalizing i with
  | nil => cases i <;> rfl
  | cons b rest ih =>
    cases i with
    | zero => simp at h
    | succ n => exact ih n (by simpa using h)

theorem getD_mem_of_lt {β : Type} (l : List β) (i : Nat) (d : β)
    (h : i < l.length) : l.getD i d ∈ l := by
  induction l generalizing i with
  | nil => simp at h
  | cons b rest ih =>
    cases i with
    | zero => exact List.mem_cons_self _ _
    | succ n => exact List.mem_cons_of_mem _ (ih n (by simpa using h))

theorem getD_replicate_of_lt {a d : Bool} {n j : Nat} (h : j < n) :
    (List.replicate n a).getD j d = a := by
  induction n generalizing j with
  | zero => omega
  | succ k ih =>
    cases j with
    | zero => rfl
    | succ j2 => exact ih (by omega)

theorem getD_false_of_all_not (l : List Bool)
    (h : l.all (fun b => !b) = true) (i : Nat) : l.getD i false = false := by
  induction l generalizing i with
  | nil => rfl
  | cons b rest ih =>
    simp only [List.all_cons, Bool.and_eq_true, Bool.not_eq_true'] at h
    cases i with
    | zero => exact h.1
    | succ n => exact ih (by simpa using h.2) n

theorem mem_activeIndices {α : Type} {st : MergeState α} {i : Nat} :
    i ∈ activeIndices st ↔
      i < st.active.length ∧ st.active.getD i false = true := by
  simp [activeIndices, List.mem_filter, List.mem_range]

theorem pickActive_mem {α : Type} {st : MergeState α} {s i : Nat}
    (h : pickActive st s = some i) : i ∈ activeIndices st := by
  unfold pickActive at h
  cases hacts : activeIndices st with
  | nil => rw [hacts] at h; cases h
  | cons a rest =>
    rw [hacts] at h
    injection h with h
    subst h
    exact getD_mem_of_lt _ _ _ (Nat.mod_lt _ (Nat.succ_pos _))

theorem filterMap_const_none {β γ : Type} (l : List β) :
    l.filterMap (fun _ => (none : Option γ)) = [] := by
  induction l with
  | nil => rfl
  | cons b r ih => simp [List.filterMap_cons, ih]

/- ================= Backpressure (C1) ================= -/

theorem fetchGated_mergeRunAux {α : Type} (i : Nat) (sched : List Nat) :
    ∀ (st : MergeState α) (c : Nat),
      fetchGated i (mergeRunAux sched st).trace c = true := by
  induction sched with
  | nil => intro st c; rfl
  | cons s rest ih =>
    intro st c
    rw [mergeRunAux]
    cases hp : pickActive st s with
    | none => simp only [hp]; rfl
    | some i0 =>
      simp only [hp]
      cases hrem : st.remaining.getD i0 [] with
      | nil =>
        simp only [fetchGated]
        exact ih _ _
      | cons it rest2 =>
        cases it with
        | ev e =>
          by_cases hi : i0 = i
          · subst hi
            simp only [fetchGated, if_pos rfl]
            exact ih _ _
          · simp only [fetchGated, if_neg hi]
            exact ih _ _
        | err m => rfl

theorem fetchGated_fetch_not_mem {α : Type} (i : Nat) (l : List Nat)
    (hnot : i ∉ l) (k : List (MergeAction α)) :
    ∀ c, fetchGated i (l.map MergeAction.fetch ++ k) c = fetchGated i k c := by
  induction l with
  | nil => intro c; rfl
  | cons j rest ih =>
    intro c
    have hji : j ≠ i := fun h => hnot (h ▸ List.mem_cons_self j rest)
    simp only [List.map_cons, List.cons_append, fetchGated, if_neg hji]
    exact ih (fun h => hnot (List.mem_cons_of_mem _ h)) c

theorem fetchGated_init_block {α : Type} (i : Nat) (l : List Nat)
    (hc1 : List.count i l ≤ 1) (k : List (MergeAction α))
    (hk : ∀ c, fetchGated i k c = true) :
    ∀ c, 0 < c → fetchGated i (l.map MergeAction.fetch ++ k) c = true := by
  induction l with
  | nil => intro c _; exact hk c
  | cons j rest ih =>
    intro c hc
    by_cases hji : j = i
    · subst hji
      have hcount : List.count j rest = 0 := by
        rw [List.count_cons_self] at hc1
        omega
      have hnot : j ∉ rest := List.count_eq_zero.mp hcount
      cases c with
      | zero => omega
      | succ c2 =>
        simp only [List.map_cons, List.cons_append, fetchGated,
          eq_self_iff_true, if_true, ite_true, List.append_eq]
        rw [fetchGated_fetch_not_mem j rest hnot k]
        exact hk c2
    · simp only [List.map_cons, List.cons_append, fetchGated, if_neg hji]
      refine ih ?_ c hc
      rw [List.count_cons_of_ne (fun h => hji h.symm)] at hc1
      exact hc1

/-- C1: for every list of event sources and every completion schedule, the
fan-in merger `_merge_agent_run` never issues a second fetch (`__anext__`
task) to a source before that source's previously fetched event has been
yielded to the downstream consumer: walking the trace of a full run, every
fetch of source `i` beyond the initial one is covered by a prior downstream
yield of an `i`-event (`fetchGated` with one initial allowance), so at every
point at most one fetch per source is outstanding. -/
theorem merge_backpressure {α : Type} (sources : List (List (FetchItem α)))
    (sched : List Nat) (i : Nat) :
    fetchGated i (mergeRunFull sources sched).trace 1 = true := by
  show fetchGated i
    ((List.range sources.length).map MergeAction.fetch ++
      (mergeRunAux sched (mergeInit sources)).trace) 1 = true
  refine fetchGated_init_block i _ ?_ _ ?_ 1 Nat.one_pos
  · exact List.nodup_iff_count_le_one.mp (List.nodup_range _) i
  · intro c
    exact fetchGated_mergeRunAux i sched _ c

/- ================= Error propagation (C3) ================= -/

theorem getLast?_cons_of_ne_nil {β : Type} (x : β) (l : List β) (h : l ≠ []) :
    (x :: l).getLast? = l.getLast? := by
  cases l with
  | nil => exact absurd rfl h
  | cons a t => exact List.getLast?_cons_cons

theorem mergeRunAux_abort {α : Type} (sched : List Nat) :
    ∀ (st : MergeState α) (i : Nat) (m : String),
      (mergeRunAux sched st).aborted = some (i, m) →
      (mergeRunAux sched st).trace ≠ [] ∧
      (mergeRunAux sched st).trace.getLast? = some (MergeAction.raiseErr i m) ∧
      (∀ j, j ≠ i → st.active.getD j false = true →
        MergeAction.exhaust j ∉ (mergeRunAux sched st).trace →
        (mergeRunAux sched st).final.active.getD j false = true) := by
  induction sched with
  | nil => intro st i m h; simp [mergeRunAux] at h
  | cons s rest ih =>
    intro st i m h
    rw [mergeRunAux] at h ⊢
    cases hp : pickActive st s with
    | none => simp only [hp] at h; cases h
    | some i0 =>
      simp only [hp] at h ⊢
      cases hrem : st.remaining.getD i0 [] with
      | nil =>
        simp only [hrem] at h
        obtain ⟨hne, hlast, hact⟩ := ih ⟨st.remaining, st.active.set i0 false⟩ i m h
        refine ⟨by simp, ?_, ?_⟩
        · show (MergeAction.exhaust i0 ::
              (mergeRunAux rest ⟨st.remaining, st.active.set i0 false⟩).trace).getLast? = _
          rw [getLast?_cons_of_ne_nil _ _ hne]
          exact hlast
        · intro j hji hact0 hnm
          have hji0 : j ≠ i0 := by
            intro hh
            subst hh
            exact hnm (List.mem_cons_self _ _)
          refine hact j hji ?_ (fun hmem => hnm (List.mem_cons_of_mem _ hmem))
          rw [getD_set_ne st.active i0 j false false (fun hh => hji0 hh.symm)]
          exact hact0
      | cons it rest2 =>
        cases it with
        | ev e =>
          simp only [hrem] at h
          obtain ⟨hne, hlast, hact⟩ :=
            ih ⟨st.remaining.set i0 rest2, st.active⟩ i m h
          refine ⟨by simp, ?_, ?_⟩
          · show (MergeAction.yieldEv i0 e :: MergeAction.fetch i0 ::
                (mergeRunAux rest ⟨st.remaining.set i0 rest2, st.active⟩).trace).getLast? = _
            rw [getLast?_cons_of_ne_nil _ _ (by simp), getLast?_cons_of_ne_nil _ _ hne]
            exact hlast
          · intro j hji hact0 hnm
            refine hact j hji hact0 ?_
            intro hmem
            exact hnm (List.mem_cons_of_mem _ (List.mem_cons_of_mem _ hmem))
        | err m0 =>
          simp only [hrem, Option.some.injEq, Prod.mk.injEq] at h
          obtain ⟨hi, hm⟩ := h
          subst hi
          subst hm
          refine ⟨by simp, rfl, ?_⟩
          intro j hji hact0 _hnm
          show (st.active.set i0 false).getD j false = true
          rw [getD_set_ne st.active i0 j false false (fun hh => hji hh.symm)]
          exact hact0

/-- C3 (amended): when any source's fetch fails with an error other than
exhaustion, the error propagates to the merge's consumer (`aborted`), the
merge aborts — the raised error is the last action of the trace, so no
further event is yielded and events already yielded stay in the output —
and the outstanding fetches on the other still-unexhausted sources are left
pending, not cancelled: `_merge_agent_run` contains no cancellation code,
so every other source that never reported exhaustion is still in the
pending set when the error propagates. -/
theorem merge_error_propagates {α : Type} (sources : List (List (FetchItem α)))
    (sched : List Nat) (i : Nat) (m : String)
    (h : (mergeRunFull sources sched).aborted = some (i, m)) :
    (mergeRunFull sources sched).trace.getLast? =
        some (MergeAction.raiseErr i m) ∧
    mergeOutputs (mergeRunFull sources sched).trace =
        mergeOutputs ((mergeRunFull sources sched).trace.dropLast) ∧
    (∀ j, j ≠ i → j < sources.length →
      MergeAction.exhaust j ∉ (mergeRunFull sources sched).trace →
      (mergeRunFull sources sched).final.active.getD j false = true) := by
  have haux : (mergeRunAux sched (mergeInit sources)).aborted = some (i, m) := h
  obtain ⟨hne, hlast, hact⟩ := mergeRunAux_abort sched (mergeInit sources) i m haux
  have htr : (mergeRunFull sources sched).trace =
      (List.range sources.length).map MergeAction.fetch ++
        (mergeRunAux sched (mergeInit sources)).trace := rfl
  have hlast2 : (mergeRunFull sources sched).trace.getLast? =
      some (MergeAction.raiseErr i m) := by
    rw [htr, List.getLast?_append_of_ne_nil _ hne]
    exact hlast
  have hfne : (mergeRunFull sources sched).trace ≠ [] := by
    rw [htr]
    intro hh
    exact hne (List.append_eq_nil.mp hh).2
  refine ⟨hlast2, ?_, ?_⟩
  · have hgl : (mergeRunFull sources sched).trace.getLast hfne =
        MergeAction.raiseErr i m := by
      have hh := List.getLast?_eq_getLast _ hfne
      rw [hlast2] at hh
      exact (Option.some.inj hh).symm
    conv_lhs => rw [← List.dropLast_concat_getLast hfne]
    rw [hgl]
    simp [mergeOutputs, List.filterMap_append]
  · intro j hji hjlen hnm
    have hj0 : (mergeInit sources).active.getD j false = true := by
      show (List.replicate sources.length true).getD j false = true
      exact getD_replicate_of_lt hjlen
    refine hact j hji hj0 ?_
    intro hmem
    exact hnm (by rw [htr]; exact List.mem_append_right _ hmem)

/-- C3 counterexample: a concrete merge where source 0 fails immediately
while source 1 still has an outstanding fetch (its initial `fetch 1` was
issued, never completed).  The error propagates and the merge aborts, but
source 1's outstanding fetch is not cancelled: the final state still marks
it pending (`active = [false, true]`) and the trace contains no cancellation
— refuting the claim that every outstanding fetch on the other sources is
cancelled. -/
theorem merge_error_no_cancel_cex :
    (mergeRunFull [[FetchItem.err "boom"], [FetchItem.ev (0 : Nat)]] [0]).aborted
        = some (0, "boom") ∧
    (mergeRunFull [[FetchItem.err "boom"], [FetchItem.ev (0 : Nat)]] [0]).trace
        = [MergeAction.fetch 0, MergeAction.fetch 1,
           MergeAction.raiseErr 0 "boom"] ∧
    (mergeRunFull [[FetchItem.err "boom"], [FetchItem.ev (0 : Nat)]] [0]).final.active
        = [false, true] :=
  ⟨rfl, rfl, rfl⟩

/-- Witness for `merge_error_propagates` at the concrete aborting run. -/
theorem merge_error_propagates_witness :
    (mergeRunFull [[FetchItem.err "boom"], [FetchItem.ev (0 : Nat)]] [0]).aborted
        = some (0, "boom") ∧
    (mergeRunFull [[FetchItem.err "boom"], [FetchItem.ev (0 : Nat)]] [0]).trace.getLast?
        = some (MergeAction.raiseErr 0 "boom") ∧
    (mergeRunFull [[FetchItem.err "boom"], [FetchItem.ev (0 : Nat)]] [0]).final.active.getD 1 false
        = true :=
  ⟨rfl,
   (merge_error_propagates [[FetchItem.err "boom"], [FetchItem.ev (0 : Nat)]]
      [0] 0 "boom" rfl).1,
   (merge_error_propagates [[FetchItem.err "boom"], [FetchItem.ev (0 : Nat)]]
      [0] 0 "boom" rfl).2.2 1 (by decide) (by decide) (by decide)⟩

/- ================= Functional correctness of the merge (C2) ================= -/

theorem mergeOutputs_nil {α : Type} : mergeOutputs ([] : List (MergeAction α)) = [] := rfl

theorem mergeOutputs_cons_yield {α : Type} (j : Nat) (e : α) (tr : List (MergeAction α)) :
    mergeOutputs (MergeAction.yieldEv j e :: tr) = e :: mergeOutputs tr := rfl

theorem mergeOutputs_cons_fetch {α : Type} (j : Nat) (tr : List (MergeAction α)) :
    mergeOutputs (MergeAction.fetch j :: tr) = mergeOutputs tr := rfl

theorem mergeOutputs_cons_exhaust {α : Type} (j : Nat) (tr : List (MergeAction α)) :
    mergeOutputs (MergeAction.exhaust j :: tr) = mergeOutputs tr := rfl

theorem mergeOutputs_cons_raise {α : Type} (j : Nat) (m : String) (tr : List (MergeAction α)) :
    mergeOutputs (MergeAction.raiseErr j m :: tr) = mergeOutputs tr := rfl

theorem mergeYields_nil {α : Type} (i : Nat) :
    mergeYields ([] : List (MergeAction α)) i = [] := rfl

theorem mergeYields_cons_yield {α : Type} (j i : Nat) (e : α) (tr : List (MergeAction α)) :
    mergeYields (MergeAction.yieldEv j e :: tr) i =
      if j = i then e :: mergeYields tr i else mergeYields tr i := by
  by_cases h : j = i
  · simp [mergeYields, List.filterMap_cons, h]
  · simp [mergeYields, List.filterMap_cons, h]

theorem mergeYields_cons_fetch {α : Type} (j i : Nat) (tr : List (MergeAction α)) :
    mergeYields (MergeAction.fetch j :: tr) i = mergeYields tr i := rfl

theorem mergeYields_cons_exhaust {α : Type} (j i : Nat) (tr : List (MergeAction α)) :
    mergeYields (MergeAction.exhaust j :: tr) i = mergeYields tr i := rfl

theorem mergeYields_cons_raise {α : Type} (j i : Nat) (m : String) (tr : List (MergeAction α)) :
    mergeYields (MergeAction.raiseErr j m :: tr) i = mergeYields tr i := rfl

theorem evsOf_map_ev {α : Type} (l : List α) : evsOf (l.map FetchItem.ev) = l := by
  induction l with
  | nil => rfl
  | cons e r ih => simp only [List.map_cons, evsOf, List.filterMap_cons] at ih ⊢; rw [ih]

theorem mergeYields_append {α : Type} (t1 t2 : List (MergeAction α)) (i : Nat) :
    mergeYields (t1 ++ t2) i = mergeYields t1 i ++ mergeYields t2 i := by
  simp [mergeYields, List.filterMap_append]

theorem mergeYields_fetch_block {α : Type} (l : List Nat) (i : Nat) :
    mergeYields (l.map MergeAction.fetch : List (MergeAction α)) i = [] := by
  induction l with
  | nil => rfl
  | cons j r ih => rw [List.map_cons, mergeYields_cons_fetch]; exact ih

theorem mergeOutputs_append {α : Type} (t1 t2 : List (MergeAction α)) :
    mergeOutputs (t1 ++ t2) = mergeOutputs t1 ++ mergeOutputs t2 := by
  simp [mergeOutputs, List.filterMap_append]

theorem mergeOutputs_fetch_block {α : Type} (l : List Nat) :
    mergeOutputs (l.map MergeAction.fetch : List (MergeAction α)) = [] := by
  induction l with
  | nil => rfl
  | cons j r ih => rw [List.map_cons, mergeOutputs_cons_fetch]; exact ih

theorem evsOf_getD_map {α : Type} (sources : List (List α)) (i : Nat) :
    evsOf ((sources.map (fun l => l.map FetchItem.ev)).getD i []) =
      sources.getD i [] := by
  induction sources generalizing i with
  | nil => rfl
  | cons l r ih =>
    cases i with
    | zero => exact evsOf_map_ev l
    | succ n => exact ih n

theorem mergeYields_run {α : Type} (sched : List Nat) :
    ∀ (st : MergeState α),
      (∀ l ∈ st.remaining, ∀ (m : String), FetchItem.err m ∉ l) →
      (∀ i, st.active.getD i false = false → st.remaining.getD i [] = []) →
      completedRun (mergeRunAux sched st) = true →
      ∀ i, mergeYields (mergeRunAux sched st).trace i =
        evsOf (st.remaining.getD i []) := by
  induction sched with
  | nil =>
    intro st herr hinv hcomp i
    have hfa : st.active.getD i false = false :=
      getD_false_of_all_not st.active hcomp i
    show mergeYields ([] : List (MergeAction α)) i = _
    rw [mergeYields_nil, hinv i hfa]
    rfl
  | cons s rest ih =>
    intro st herr hinv hcomp i
    rw [mergeRunAux] at hcomp ⊢
    cases hp : pickActive st s with
    | none =>
      simp only [hp] at hcomp ⊢
      have hfa : st.active.getD i false = false :=
        getD_false_of_all_not st.active hcomp i
      show mergeYields ([] : List (MergeAction α)) i = _
      rw [mergeYields_nil, hinv i hfa]
      rfl
    | some i0 =>
      simp only [hp] at hcomp ⊢
      have hmem2 := mem_activeIndices.mp (pickActive_mem hp)
      cases hrem : st.remaining.getD i0 [] with
      | nil =>
        simp only [hrem] at hcomp
        have hinv1 : ∀ j,
            (st.active.set i0 false).getD j false = false →
            st.remaining.getD j [] = [] := by
          intro j hj
          by_cases hji : j = i0
          · subst hji; exact hrem
          · refine hinv j ?_
            rw [← getD_set_ne st.active i0 j false false (fun hh => hji hh.symm)]
            exact hj
        have hrec := ih ⟨st.remaining, st.active.set i0 false⟩ herr hinv1 hcomp i
        show mergeYields (MergeAction.exhaust i0 ::
          (mergeRunAux rest ⟨st.remaining, st.active.set i0 false⟩).trace) i = _
        rw [mergeYields_cons_exhaust]
        exact hrec
      | cons it rest2 =>
        cases it with
        | ev e =>
          simp only [hrem] at hcomp
          have hlen : i0 < st.remaining.length := by
            by_contra hh
            rw [getD_eq_default_of_le st.remaining i0 [] (by omega)] at hrem
            cases hrem
          have herr1 : ∀ l ∈ st.remaining.set i0 rest2,
              ∀ (m : String), FetchItem.err m ∉ l := by
            intro l hl m
            rcases List.mem_or_eq_of_mem_set hl with h1 | h1
            · exact herr l h1 m
            · subst h1
              intro hmm
              have hin : FetchItem.err m ∈ st.remaining.getD i0 [] := by
                rw [hrem]
                exact List.mem_cons_of_mem _ hmm
              exact herr _ (getD_mem_of_lt _ _ _ hlen) m hin
          have hinv1 : ∀ j, st.active.getD j false = false →
              (st.remaining.set i0 rest2).getD j [] = [] := by
            intro j hj
            have hji : j ≠ i0 := by
              intro hh
              subst hh
              rw [hmem2.2] at hj
              cases hj
            rw [getD_set_ne st.remaining i0 j rest2 [] (fun hh => hji hh.symm)]
            exact hinv j hj
          have hrec := ih ⟨st.remaining.set i0 rest2, st.active⟩ herr1 hinv1 hcomp
          show mergeYields (MergeAction.yieldEv i0 e :: MergeAction.fetch i0 ::
            (mergeRunAux rest ⟨st.remaining.set i0 rest2, st.active⟩).trace) i = _
          rw [mergeYields_cons_yield, mergeYields_cons_fetch]
          by_cases hi : i0 = i
          · subst hi
            rw [if_pos rfl, hrec i0, getD_set_self st.remaining i0 rest2 [] hlen,
              hrem]
            rfl
          · rw [if_neg hi, hrec i, getD_set_ne st.remaining i0 i rest2 [] hi]
        | err m =>
          exfalso
          have hlen : i0 < st.remaining.length := by
            by_contra hh
            rw [getD_eq_default_of_le st.remaining i0 [] (by omega)] at hrem
            cases hrem
          have hin : FetchItem.err m ∈ st.remaining.getD i0 [] := by
            rw [hrem]
            exact List.mem_cons_self _ _
          exact herr _ (getD_mem_of_lt _ _ _ hlen) m hin

theorem trace_yield_bound {α : Type} (sched : List Nat) :
    ∀ (st : MergeState α) (j : Nat) (e : α),
      MergeAction.yieldEv j e ∈ (mergeRunAux sched st).trace →
      j < st.active.length := by
  induction sched with
  | nil => intro st j e h; simp [mergeRunAux] at h
  | cons s rest ih =>
    intro st j e h
    rw [mergeRunAux] at h
    cases hp : pickActive st s with
    | none => simp only [hp] at h; cases h
    | some i0 =>
      simp only [hp] at h
      have hmem2 := mem_activeIndices.mp (pickActive_mem hp)
      cases hrem : st.remaining.getD i0 [] with
      | nil =>
        simp only [hrem] at h
        rcases List.mem_cons.mp h with h1 | h1
        · cases h1
        · have := ih ⟨st.remaining, st.active.set i0 false⟩ j e h1
          simpa [List.length_set] using this
      | cons it rest2 =>
        cases it with
        | ev e0 =>
          simp only [hrem] at h
          rcases List.mem_cons.mp h with h1 | h1
          · injection h1 with hj _
            rw [hj]
            exact hmem2.1
          · rcases List.mem_cons.mp h1 with h2 | h2
            · cases h2
            · exact ih ⟨st.remaining.set i0 rest2, st.active⟩ j e h2
        | err m =>
          simp only [hrem] at h
          rcases List.mem_cons.mp h with h1 | h1
          · cases h1
          · cases h1

theorem count_mergeOutputs {α : Type} [DecidableEq α] (e : α) (N : Nat) :
    ∀ (tr : List (MergeAction α)),
      (∀ (j : Nat) (ev : α), MergeAction.yieldEv j ev ∈ tr → j < N) →
      List.count e (mergeOutputs tr) =
        ∑ k in Finset.range N, List.count e (mergeYields tr k) := by
  intro tr
  induction tr with
  | nil => intro _; simp [mergeOutputs_nil, mergeYields_nil]
  | cons a rest ih =>
    intro hb
    have hb2 : ∀ (j : Nat) (ev : α), MergeAction.yieldEv j ev ∈ rest → j < N :=
      fun j ev hm => hb j ev (List.mem_cons_of_mem _ hm)
    cases a with
    | fetch j =>
      rw [mergeOutputs_cons_fetch, ih hb2]
      refine Finset.sum_congr rfl ?_
      intro k _
      rw [mergeYields_cons_fetch]
    | exhaust j =>
      rw [mergeOutputs_cons_exhaust, ih hb2]
      refine Finset.sum_congr rfl ?_
      intro k _
      rw [mergeYields_cons_exhaust]
    | raiseErr j m =>
      rw [mergeOutputs_cons_raise, ih hb2]
      refine Finset.sum_congr rfl ?_
      intro k _
      rw [mergeYields_cons_raise]
    | yieldEv j ev =>
      have hj : j < N := hb j ev (List.mem_cons_self _ _)
      have hsum : ∀ k ∈ Finset.range N,
          List.count e (mergeYields (MergeAction.yieldEv j ev :: rest) k) =
            List.count e (mergeYields rest k) +
              (if j = k then (if ev = e then 1 else 0) else 0) := by
        intro k _
        rw [mergeYields_cons_yield]
        by_cases hjk : j = k
        · rw [if_pos hjk, if_pos hjk]
          by_cases hev : ev = e
          · subst hev
            rw [List.count_cons_self, if_pos rfl]
          · rw [List.count_cons_of_ne (fun hh => hev hh.symm), if_neg hev]
            omega
        · rw [if_neg hjk, if_neg hjk]
          omega
      rw [mergeOutputs_cons_yield, Finset.sum_congr rfl hsum,
        Finset.sum_add_distrib, ← ih hb2]
      have hite : (∑ k in Finset.range N,
          (if j = k then (if ev = e then 1 else 0) else 0)) =
          (if ev = e then 1 else 0) := by
        rw [Finset.sum_ite_eq]
        exact if_pos (Finset.mem_range.mpr hj)
      rw [hite]
      by_cases hev : ev = e
      · subst hev
        rw [List.count_cons_self, if_pos rfl]
      · rw [List.count_cons_of_ne (fun hh => hev hh.symm), if_neg hev]
        omega

theorem count_flatten_getD {α : Type} [DecidableEq α] (e : α) (sources : List (List α)) :
    List.count e sources.flatten =
      ∑ k in Finset.range sources.length, List.count e (sources.getD k []) := by
  induction sources with
  | nil => simp
  | cons l r ih =>
    rw [List.flatten_cons, List.length_cons, Finset.sum_range_succ',
      List.count_append, ih]
    simp only [List.getD_cons_succ, List.getD_cons_zero]
    omega

/-- C2: for every list of event sources (each a finite error-free event
list) and every completion schedule under which the merge runs to
completion, the merged sequence preserves each source's own order exactly
(the events yielded from source `i` are precisely source `i`'s list) and
the merged sequence as a whole is a permutation — equal as a multiset — of
the concatenation of all sources' events. -/
theorem merge_order_and_union {α : Type} [DecidableEq α]
    (sources : List (List α)) (sched : List Nat)
    (hc : completedRun
      (mergeRunFull (sources.map (fun l => l.map FetchItem.ev)) sched) = true) :
    (∀ i, mergeYields
        (mergeRunFull (sources.map (fun l => l.map FetchItem.ev)) sched).trace i =
        sources.getD i []) ∧
    (mergeOutputs
        (mergeRunFull (sources.map (fun l => l.map FetchItem.ev)) sched).trace).Perm
      sources.flatten := by
  have herr0 : ∀ l ∈ sources.map (fun l => l.map FetchItem.ev),
      ∀ (m : String), FetchItem.err m ∉ l := by
    intro l hl m hmm
    rcases List.mem_map.mp hl with ⟨l0, _, rfl⟩
    rcases List.mem_map.mp hmm with ⟨x, _, hx⟩
    cases hx
  have hinv0 : ∀ i,
      (mergeInit (sources.map (fun l => l.map FetchItem.ev))).active.getD i false
          = false →
      (mergeInit (sources.map (fun l => l.map FetchItem.ev))).remaining.getD i []
          = [] := by
    intro i hi
    by_cases hlt : i < (sources.map (fun l => l.map FetchItem.ev)).length
    · exfalso
      have htrue : (List.replicate
          (sources.map (fun l => l.map FetchItem.ev)).length true).getD i false
          = true := getD_replicate_of_lt hlt
      rw [show (mergeInit (sources.map (fun l => l.map FetchItem.ev))).active =
        List.replicate (sources.map (fun l => l.map FetchItem.ev)).length true
        from rfl, htrue] at hi
      cases hi
    · refine getD_eq_default_of_le _ _ _ ?_
      show (sources.map (fun l => l.map FetchItem.ev)).length ≤ i
      omega
  have hyields : ∀ i, mergeYields
      (mergeRunFull (sources.map (fun l => l.map FetchItem.ev)) sched).trace i =
      sources.getD i [] := by
    intro i
    have h1 : (mergeRunFull (sources.map (fun l => l.map FetchItem.ev)) sched).trace =
        (List.range (sources.map (fun l => l.map FetchItem.ev)).length).map
          MergeAction.fetch ++
        (mergeRunAux sched
          (mergeInit (sources.map (fun l => l.map FetchItem.ev)))).trace := rfl
    rw [h1, mergeYields_append, mergeYields_fetch_block, List.nil_append,
      mergeYields_run sched _ herr0 hinv0 hc i]
    exact evsOf_getD_map sources i
  refine ⟨hyields, ?_⟩
  rw [List.perm_iff_count]
  intro e
  have hbound : ∀ (j : Nat) (ev : α), MergeAction.yieldEv j ev ∈
      (mergeRunFull (sources.map (fun l => l.map FetchItem.ev)) sched).trace →
      j < sources.length := by
    intro j ev hm
    rcases List.mem_append.mp hm with h1 | h1
    · rcases List.mem_map.mp h1 with ⟨x, _, hx⟩
      cases hx
    · have hlt := trace_yield_bound sched
        (mergeInit (sources.map (fun l => l.map FetchItem.ev))) j ev h1
      simpa [mergeInit, List.length_replicate, List.length_map] using hlt
  rw [count_mergeOutputs e sources.length _ hbound, count_flatten_getD e sources]
  refine Finset.sum_congr rfl ?_
  intro k _
  rw [hyields k]

/-- Witness for `merge_order_and_union`: a two-source run under a concrete
schedule that completes; source 0's order is preserved and the output is a
permutation of all events. -/
theorem merge_order_and_union_witness :
    completedRun (mergeRunFull
      (([[1, 2], [3]] : List (List Nat)).map (fun l => l.map FetchItem.ev))
      [0, 0, 0, 0, 0]) = true ∧
    mergeYields (mergeRunFull
      (([[1, 2], [3]] : List (List Nat)).map (fun l => l.map FetchItem.ev))
      [0, 0, 0, 0, 0]).trace 0 = [1, 2] ∧
    (mergeOutputs (mergeRunFull
      (([[1, 2], [3]] : List (List Nat)).map (fun l => l.map FetchItem.ev))
      [0, 0, 0, 0, 0]).trace).Perm [1, 2, 3] :=
  ⟨by decide,
   (merge_order_and_union [[1, 2], [3]] [0, 0, 0, 0, 0] (by decide)).1 0,
   (merge_order_and_union [[1, 2], [3]] [0, 0, 0, 0, 0] (by decide)).2⟩

/- ================= Branch isolation (C5) and zero children (C9) ================= -/

theorem mergeOutputs_sub_flatten {α : Type} (sched : List Nat) :
    ∀ (st : MergeState α) (e : α),
      e ∈ mergeOutputs (mergeRunAux sched st).trace →
      FetchItem.ev e ∈ st.remaining.flatten := by
  induction sched with
  | nil => intro st e h; simp [mergeRunAux, mergeOutputs_nil] at h
  | cons s rest ih =>
    intro st e h
    rw [mergeRunAux] at h
    cases hp : pickActive st s with
    | none => simp only [hp] at h; simp [mergeOutputs_nil] at h
    | some i0 =>
      simp only [hp] at h
      cases hrem : st.remaining.getD i0 [] with
      | nil =>
        simp only [hrem] at h
        rw [show mergeOutputs (MergeAction.exhaust i0 ::
            (mergeRunAux rest ⟨st.remaining, st.active.set i0 false⟩).trace) =
          mergeOutputs (mergeRunAux rest
            ⟨st.remaining, st.active.set i0 false⟩).trace
          from mergeOutputs_cons_exhaust _ _] at h
        exact ih ⟨st.remaining, st.active.set i0 false⟩ e h
      | cons it rest2 =>
        cases it with
        | ev e0 =>
          have hlen : i0 < st.remaining.length := by
            by_contra hh
            rw [getD_eq_default_of_le st.remaining i0 [] (by omega)] at hrem
            cases hrem
          simp only [hrem] at h
          rw [show mergeOutputs (MergeAction.yieldEv i0 e0 :: MergeAction.fetch i0 ::
              (mergeRunAux rest ⟨st.remaining.set i0 rest2, st.active⟩).trace) =
            e0 :: mergeOutputs (mergeRunAux rest
              ⟨st.remaining.set i0 rest2, st.active⟩).trace from rfl] at h
          rcases List.mem_cons.mp h with h1 | h1
          · subst h1
            rw [List.mem_flatten]
            exact ⟨st.remaining.getD i0 [], getD_mem_of_lt _ _ _ hlen,
              by rw [hrem]; exact List.mem_cons_self _ _⟩
          · have hrec := ih ⟨st.remaining.set i0 rest2, st.active⟩ e h1
            rw [List.mem_flatten] at hrec ⊢
            rcases hrec with ⟨l, hl, hel⟩
            rcases List.mem_or_eq_of_mem_set hl with h2 | h2
            · exact ⟨l, h2, hel⟩
            · subst h2
              refine ⟨st.remaining.getD i0 [], getD_mem_of_lt _ _ _ hlen, ?_⟩
              rw [hrem]
              exact List.mem_cons_of_mem _ hel
        | err m =>
          simp only [hrem] at h
          simp [mergeOutputs, List.filterMap_cons] at h

/-- C5: a Parallel agent named "P" first appends its own name to the
context's branch; each child then runs against an independent clone whose
branch extends the parent's with the child's name, so under an empty or
unset parent branch every event the merged run yields comes from child "X"
with branch exactly "P.X" and payload from "X"'s events, or from child "Y"
with branch exactly "P.Y" and payload from "Y"'s events — branches are
never empty and never cross between siblings. -/
theorem parallel_branch_isolation {α : Type} (xs ys : List α)
    (ctx : InvocationContext) (sched : List Nat)
    (hb : ctx.branch = none ∨ ctx.branch = some "") :
    (set_branch_for_current_agent "P" ctx).branch = some "P" ∧
    ∀ ev ∈ parallelAgentRun "P" [⟨"X", xs⟩, ⟨"Y", ys⟩] ctx sched,
      (ev.branch = "P.X" ∧ ev.payload ∈ xs) ∨
      (ev.branch = "P.Y" ∧ ev.payload ∈ ys) := by
  obtain ⟨b⟩ := ctx
  have hsetP : (set_branch_for_current_agent "P" ⟨b⟩).branch = some "P" := by
    rcases hb with h | h <;>
      simp only at h <;> subst h <;> rfl
  refine ⟨hsetP, ?_⟩
  intro ev hev
  have hruns : parallelAgentRun "P" [⟨"X", xs⟩, ⟨"Y", ys⟩] ⟨b⟩ sched =
      mergeOutputs (mergeRunFull
        [(runAsyncLeaf ⟨"X", xs⟩ (set_branch_for_current_agent "P" ⟨b⟩)).map FetchItem.ev,
         (runAsyncLeaf ⟨"Y", ys⟩ (set_branch_for_current_agent "P" ⟨b⟩)).map FetchItem.ev]
        sched).trace := rfl
  rw [hruns] at hev
  have hev3 : ev ∈ mergeOutputs (mergeRunAux sched (mergeInit
      [(runAsyncLeaf ⟨"X", xs⟩ (set_branch_for_current_agent "P" ⟨b⟩)).map FetchItem.ev,
       (runAsyncLeaf ⟨"Y", ys⟩ (set_branch_for_current_agent "P" ⟨b⟩)).map FetchItem.ev])).trace := by
    rw [show (mergeRunFull
        [(runAsyncLeaf ⟨"X", xs⟩ (set_branch_for_current_agent "P" ⟨b⟩)).map FetchItem.ev,
         (runAsyncLeaf ⟨"Y", ys⟩ (set_branch_for_current_agent "P" ⟨b⟩)).map FetchItem.ev]
        sched).trace =
      (List.range 2).map MergeAction.fetch ++
        (mergeRunAux sched (mergeInit
          [(runAsyncLeaf ⟨"X", xs⟩ (set_branch_for_current_agent "P" ⟨b⟩)).map FetchItem.ev,
           (runAsyncLeaf ⟨"Y", ys⟩ (set_branch_for_current_agent "P" ⟨b⟩)).map FetchItem.ev])).trace
      from rfl, mergeOutputs_append, mergeOutputs_fetch_block,
      List.nil_append] at hev
    exact hev
  have hev2 : FetchItem.ev ev ∈
      ([(runAsyncLeaf ⟨"X", xs⟩ (set_branch_for_current_agent "P" ⟨b⟩)).map FetchItem.ev,
        (runAsyncLeaf ⟨"Y", ys⟩ (set_branch_for_current_agent "P" ⟨b⟩)).map FetchItem.ev]
        : List (List (FetchItem (BranchEvent α)))).flatten :=
    mergeOutputs_sub_flatten sched (mergeInit
      [(runAsyncLeaf ⟨"X", xs⟩ (set_branch_for_current_agent "P" ⟨b⟩)).map FetchItem.ev,
       (runAsyncLeaf ⟨"Y", ys⟩ (set_branch_for_current_agent "P" ⟨b⟩)).map FetchItem.ev]) ev hev3
  have hbranchX : (set_branch_for_current_agent "X"
      (set_branch_for_current_agent "P" ⟨b⟩)).branch = some "P.X" := by
    have : set_branch_for_current_agent "P" ⟨b⟩ = ⟨some "P"⟩ := by
      rcases hb with h | h <;> simp only at h <;> subst h <;> rfl
    rw [this]
    rfl
  have hbranchY : (set_branch_for_current_agent "Y"
      (set_branch_for_current_agent "P" ⟨b⟩)).branch = some "P.Y" := by
    have : set_branch_for_current_agent "P" ⟨b⟩ = ⟨some "P"⟩ := by
      rcases hb with h | h <;> simp only at h <;> subst h <;> rfl
    rw [this]
    rfl
  rw [List.mem_flatten] at hev2
  rcases hev2 with ⟨l, hl, hel⟩
  rcases List.mem_cons.mp hl with h1 | h1
  · subst h1
    rcases List.mem_map.mp hel with ⟨ev0, hev0, heq⟩
    injection heq with heq
    subst heq
    left
    unfold runAsyncLeaf at hev0
    rw [hbranchX] at hev0
    rcases List.mem_map.mp hev0 with ⟨x, hx, rfl⟩
    exact ⟨rfl, hx⟩
  · rcases List.mem_cons.mp h1 with h2 | h2
    · subst h2
      rcases List.mem_map.mp hel with ⟨ev0, hev0, heq⟩
      injection heq with heq
      subst heq
      right
      simp only [runAsyncLeaf] at hev0
      rw [hbranchY] at hev0
      rcases List.mem_map.mp hev0 with ⟨y, hy, rfl⟩
      exact ⟨rfl, hy⟩
    · cases h2

/-- Witness for `parallel_branch_isolation` at a concrete run. -/
theorem parallel_branch_isolation_witness :
    ((none : Option String) = none ∨ (none : Option String) = some "") ∧
    (((⟨"P.X", 1⟩ : BranchEvent Nat).branch = "P.X" ∧
        (⟨"P.X", 1⟩ : BranchEvent Nat).payload ∈ [1]) ∨
     ((⟨"P.X", 1⟩ : BranchEvent Nat).branch = "P.Y" ∧
        (⟨"P.X", 1⟩ : BranchEvent Nat).payload ∈ [2])) :=
  ⟨Or.inl rfl,
   (parallel_branch_isolation [1] [2] ⟨none⟩ [0, 1, 0, 1] (Or.inl rfl)).2
     ⟨"P.X", 1⟩ (by decide)⟩

/-- C9: a Parallel agent with an empty list of children yields zero events
and completes immediately: the merge of zero sources produces an empty
trace and ends without error, for every schedule. -/
theorem parallel_zero_children {α : Type} (nm : String)
    (ctx : InvocationContext) (sched : List Nat) :
    parallelAgentRun nm ([] : List (LeafAgent α)) ctx sched = [] ∧
    (mergeRunFull ([] : List (List (FetchItem α))) sched).trace = [] ∧
    (mergeRunFull ([] : List (List (FetchItem α))) sched).aborted = none := by
  cases sched with
  | nil => exact ⟨rfl, rfl, rfl⟩
  | cons s rest => exact ⟨rfl, rfl, rfl⟩

/- ================= Assembler claims (C4, C7, C8) ================= -/

/-- C4: on the streaming chunk sequence of three text deltas followed by
two tool-call fragments for index 0 (the first carrying id and name) and a
finish marker, the assembler emits exactly, in order, three partial text
events with the three fragment texts and then one function-call event whose
id and name come from the first fragment and whose args are the structured
parse of the concatenation of the two argument fragments. -/
theorem streaming_assembler_sequence (id nm f1 f2 reason : String)
    (args : List (String × String))
    (hp : parseJsonObject (f1 ++ f2) = some args) :
    runStream [Chunk.textDelta "zero, ", Chunk.textDelta "one, ",
      Chunk.textDelta "two:",
      Chunk.toolCallDelta 0 (some id) (some nm) f1,
      Chunk.toolCallDelta 0 none none f2,
      Chunk.finish reason] =
      [StreamItem.event ⟨"model", [EvPart.text "zero, "], true⟩,
       StreamItem.event ⟨"model", [EvPart.text "one, "], true⟩,
       StreamItem.event ⟨"model", [EvPart.text "two:"], true⟩,
       StreamItem.event ⟨"model", [EvPart.functionCall id nm args], false⟩] := by
  simp [runStream, runStreamAux, stepChunk, updateToolCall, hp]

/-- Witness for `streaming_assembler_sequence` at the concrete chunk values
of the repository's streaming test. -/
theorem streaming_assembler_sequence_witness :
    parseJsonObject ("\x7b\"test_arg\": \"test_" ++ "value\"\x7d")
        = some [("test_arg", "test_value")] ∧
    runStream [Chunk.textDelta "zero, ", Chunk.textDelta "one, ",
      Chunk.textDelta "two:",
      Chunk.toolCallDelta 0 (some "test_tool_call_id") (some "test_function")
        "\x7b\"test_arg\": \"test_",
      Chunk.toolCallDelta 0 none none "value\"\x7d",
      Chunk.finish "tool_calls"] =
      [StreamItem.event ⟨"model", [EvPart.text "zero, "], true⟩,
       StreamItem.event ⟨"model", [EvPart.text "one, "], true⟩,
       StreamItem.event ⟨"model", [EvPart.text "two:"], true⟩,
       StreamItem.event ⟨"model",
         [EvPart.functionCall "test_tool_call_id" "test_function"
           [("test_arg", "test_value")]], false⟩] :=
  ⟨by decide,
   streaming_assembler_sequence "test_tool_call_id" "test_function"
     "\x7b\"test_arg\": \"test_" "value\"\x7d" "tool_calls"
     [("test_arg", "test_value")] (by decide)⟩

/-- C7: on any non-streaming response the assembler emits exactly one
event whose parts are, in order, one text part when text is present
followed by one function-call part per tool call in response order, with
each tool call's id and name preserved unchanged. -/
theorem non_streaming_single_event (r : ModelResponseNS) :
    ∃ ev, nonStreamingAssemble r = [ev] ∧
      ev.role = normalizeResponseRole r.role ∧
      ev.isPartial = false ∧
      (∀ t, r.text = some t → ev.parts.head? = some (EvPart.text t)) ∧
      ev.parts.length =
        (match r.text with | some _ => 1 | none => 0) + r.toolCalls.length ∧
      (∀ k, ev.parts.get? ((match r.text with | some _ => 1 | none => 0) + k) =
        (r.toolCalls.get? k).map
          (fun tc => EvPart.functionCall tc.id tc.name tc.args)) := by
  obtain ⟨role, text, toolCalls⟩ := r
  cases text with
  | none =>
    refine ⟨_, rfl, rfl, rfl, ?_, ?_, ?_⟩
    · intro t ht
      cases ht
    · simp [nonStreamingAssemble]
    · intro k
      simp only [nonStreamingAssemble, List.nil_append, Nat.zero_add]
      exact List.get?_map _ _ _
  | some t0 =>
    refine ⟨_, rfl, rfl, rfl, ?_, ?_, ?_⟩
    · intro t ht
      injection ht with ht
      subst ht
      rfl
    · simp [nonStreamingAssemble]
      omega
    · intro k
      simp only [nonStreamingAssemble, List.singleton_append]
      rw [Nat.add_comm 1 k, List.get?_cons_succ]
      exact List.get?_map _ _ _

/-- C8: role normalization in the response assembler maps an incoming role
of "model" or "assistant" to the canonical output role "model" and maps a
missing role to "user"; in particular the non-streaming assembler stamps a
response carrying role "assistant" with the role "model". -/
theorem response_role_normalization :
    normalizeResponseRole (some "model") = "model" ∧
    normalizeResponseRole (some "assistant") = "model" ∧
    normalizeResponseRole none = "user" ∧
    (nonStreamingAssemble ⟨some "assistant", some "Test response", []⟩).map
      LlmEvent.role = ["model"] := by
  refine ⟨?_, ?_, rfl, ?_⟩ <;>
    simp [normalizeResponseRole, nonStreamingAssemble]

/- ================= Processor pipeline (C6) ================= -/

/-- C6: the SingleFlow request and response processor lists are fixed at
construction to exactly the literals of single_flow.py, the fold executes
every processor in declared order on every turn (the execution trace equals
the declared list and the result is the nested left-to-right application),
and in particular the contents processor precedes both the NL-planning and
the code-execution request processors. -/
theorem single_flow_processor_order {α : Type}
    (applyReq : RequestProcessor → α → α)
    (applyResp : ResponseProcessor → α → α) (ctx ctxR : α) :
    singleFlowRequestProcessors =
      [RequestProcessor.basic, RequestProcessor.authPreprocessor,
       RequestProcessor.instructions, RequestProcessor.identity,
       RequestProcessor.contents, RequestProcessor.nlPlanning,
       RequestProcessor.codeExecution] ∧
    (runProcessorsWithTrace applyReq singleFlowRequestProcessors ctx).2 =
      singleFlowRequestProcessors ∧
    (runProcessorsWithTrace applyReq singleFlowRequestProcessors ctx).1 =
      applyReq RequestProcessor.codeExecution
        (applyReq RequestProcessor.nlPlanning
          (applyReq RequestProcessor.contents
            (applyReq RequestProcessor.identity
              (applyReq RequestProcessor.instructions
                (applyReq RequestProcessor.authPreprocessor
                  (applyReq RequestProcessor.basic ctx)))))) ∧
    (runProcessorsWithTrace applyResp singleFlowResponseProcessors ctxR).2 =
      singleFlowResponseProcessors ∧
    (runProcessorsWithTrace applyResp singleFlowResponseProcessors ctxR).1 =
      applyResp ResponseProcessor.codeExecution
        (applyResp ResponseProcessor.nlPlanning ctxR) ∧
    List.indexOf RequestProcessor.contents singleFlowRequestProcessors <
      List.indexOf RequestProcessor.nlPlanning singleFlowRequestProcessors ∧
    List.indexOf RequestProcessor.contents singleFlowRequestProcessors <
      List.indexOf RequestProcessor.codeExecution singleFlowRequestProcessors :=
  ⟨rfl, rfl, rfl, rfl, rfl, by decide, by decide⟩

/- ================= Branch building (C10) ================= -/

/-- C10: `_set_branch_for_current_agent` sets the branch to the old branch,
a dot, and the agent's name when the old branch was non-empty, and to
exactly the agent's name when the old branch was empty or unset; for agent
names that are valid branch segments (non-empty, not starting with the
separator — BaseAgent validates names as identifiers) appended to a
well-formed old branch, the resulting branch is never empty and never
starts with the separator. -/
theorem set_branch_spec (old : Option String) (nm : String)
    (hne : nm ≠ "") (hsep : startsWithSep nm = false)
    (hold : ∀ b, old = some b → startsWithSep b = false) :
    ((old = none ∨ old = some "") →
      (set_branch_for_current_agent nm ⟨old⟩).branch = some nm) ∧
    (∀ b, old = some b → b ≠ "" →
      (set_branch_for_current_agent nm ⟨old⟩).branch = some (b ++ "." ++ nm)) ∧
    (∀ s2, (set_branch_for_current_agent nm ⟨old⟩).branch = some s2 →
      s2 ≠ "" ∧ startsWithSep s2 = false) := by
  cases old with
  | none =>
    refine ⟨fun _ => rfl, ?_, ?_⟩
    · intro b hb
      cases hb
    · intro s2 hs2
      have hs2' : nm = s2 := Option.some.inj hs2
      subst hs2'
      exact ⟨hne, hsep⟩
  | some b =>
    by_cases hb0 : b = ""
    · subst hb0
      refine ⟨fun _ => rfl, ?_, ?_⟩
      · intro b' hb' hne'
        exact absurd (Option.some.inj hb').symm hne'
      · intro s2 hs2
        have hs2' : nm = s2 := Option.some.inj hs2
        subst hs2'
        exact ⟨hne, hsep⟩
    · have hbranch : (set_branch_for_current_agent nm ⟨some b⟩).branch =
          some (b ++ "." ++ nm) := by
        simp [set_branch_for_current_agent, hb0]
      have hdata : (b ++ "." ++ nm).data = b.data ++ ('.' :: nm.data) := by
        show (b.data ++ ['.']) ++ nm.data = b.data ++ ('.' :: nm.data)
        rw [List.append_assoc]
        rfl
      refine ⟨?_, ?_, ?_⟩
      · intro h
        rcases h with h | h
        · cases h
        · exact absurd (Option.some.inj h) hb0
      · intro b' hb' _
        rw [Option.some.inj hb'] at hbranch ⊢
        exact hbranch
      · intro s2 hs2
        rw [hbranch] at hs2
        have heq : b ++ "." ++ nm = s2 := Option.some.inj hs2
        subst heq
        cases hbd : b.data with
        | nil => exact absurd (String.ext hbd) hb0
        | cons c cs =>
          have hcdot : (decide (c = '.')) = false := by
            have hb2 := hold b rfl
            rw [startsWithSep, hbd] at hb2
            exact hb2
          have hdata2 : (b ++ "." ++ nm).data = c :: (cs ++ '.' :: nm.data) := by
            rw [hdata, hbd]
            rfl
          constructor
          · intro hh
            rw [hh] at hdata2
            cases hdata2
          · rw [startsWithSep, hdata2]
            exact hcdot

/-- Witness for `set_branch_spec` at a concrete non-empty old branch. -/
theorem set_branch_spec_witness :
    (("child" : String) ≠ "" ∧ startsWithSep "child" = false) ∧
    (set_branch_for_current_agent "child" ⟨some "root"⟩).branch =
      some ("root" ++ "." ++ "child") :=
  ⟨⟨by decide, by decide⟩,
   (set_branch_spec (some "root") "child" (by decide) (by decide)
      (fun b hb => by cases hb; decide)).2.1 "root" rfl (by decide)⟩
